import Mathlib

/-!
Verification of the session-scoped retrieval pipeline of the RAG backend.

Strings are modelled as lists of characters (`List Char`); Python string
operations (`str.split()`, `" ".join(...)`, `str.split(sep)`,
`str.capitalize()`) are embedded as functions on such lists.  The external
vector database and the external embedding model are modelled through their
contracts (an upsert appends records, a search applies the given payload
filter and then ranks by a similarity score); everything else is transcribed
from the backend sources.
-/

/-- Python `str.split()` (no separator argument): split on runs of
whitespace, discarding empty fragments.  Used by `sentence.split()` and
`" ".join(current_chunk).split()` in `backend/chunker.py`. -/
def pwords (s : List Char) : List (List Char) :=
  (s.splitOnP (fun c => c.isWhitespace)).filter (fun w => w ≠ [])

/-- Python `" ".join(strings)`: concatenate with a single space between
consecutive elements. -/
def pjoin (l : List (List Char)) : List Char :=
  List.intercalate [' '] l

theorem pwords_nil : pwords [] = [] := by
  simp [pwords, List.splitOnP_nil]

theorem pjoin_nil : pjoin [] = [] := rfl

theorem pjoin_single (x : List Char) : pjoin [x] = x := by
  simp [pjoin, List.intercalate]

theorem pjoin_cons_cons (x y : List Char) (t : List (List Char)) :
    pjoin (x :: y :: t) = x ++ ' ' :: pjoin (y :: t) := by
  simp [pjoin, List.intercalate]

theorem splitOnP_append_sep (p : Char → Bool) (sep : Char) (hsep : p sep = true)
    (a b : List Char) : (a ++ sep :: b).splitOnP p = a.splitOnP p ++ b.splitOnP p := by
  induction a with
  | nil => simp [List.splitOnP_nil, List.splitOnP_cons, hsep]
  | cons c a ih =>
      by_cases hc : p c = true
      · simp [List.splitOnP_cons, hc, ih]
      · have hne := List.splitOnP_ne_nil p a
        simp only [List.cons_append, List.splitOnP_cons, hc, if_false, ih]
        cases h : a.splitOnP p with
        | nil => exact absurd h hne
        | cons w ws => simp [List.modifyHead]

/-- Splitting into words distributes over concatenation at a whitespace
character. -/
theorem pwords_append_space (a b : List Char) :
    pwords (a ++ ' ' :: b) = pwords a ++ pwords b := by
  have hsep : (' ' : Char).isWhitespace = true := by decide
  simp [pwords, splitOnP_append_sep (fun c => c.isWhitespace) ' ' hsep a b,
    List.filter_append]

/-- The words of a space-join are the concatenation of each part's words. -/
theorem pwords_pjoin (l : List (List Char)) :
    pwords (pjoin l) = (l.map pwords).flatten := by
  induction l with
  | nil => simp [pjoin_nil, pwords_nil]
  | cons x t ih =>
      cases t with
      | nil => simp [pjoin_single]
      | cons y t' =>
          rw [pjoin_cons_cons, pwords_append_space, ih]
          simp

theorem mem_pwords_ne_nil {w : List Char} {s : List Char} (h : w ∈ pwords s) :
    w ≠ [] := by
  have := List.of_mem_filter h
  simpa using this

theorem mem_splitOnP_no_sep (p : Char → Bool) :
    ∀ (s : List Char), ∀ w ∈ s.splitOnP p, ∀ c ∈ w, p c = false := by
  intro s
  induction s with
  | nil =>
      intro w hw c hc
      rw [List.splitOnP_nil] at hw
      simp at hw
      subst hw
      simp at hc
  | cons x s ih =>
      intro w hw c hc
      rw [List.splitOnP_cons] at hw
      by_cases hx : p x = true
      · rw [if_pos hx] at hw
        rcases List.mem_cons.mp hw with h1 | h2
        · subst h1; simp at hc
        · exact ih w h2 c hc
      · rw [if_neg hx] at hw
        have hne := List.splitOnP_ne_nil p s
        cases hsp : s.splitOnP p with
        | nil => exact absurd hsp hne
        | cons v vs =>
            rw [hsp] at hw
            simp only [List.modifyHead] at hw
            rcases List.mem_cons.mp hw with h1 | h2
            · subst h1
              rcases List.mem_cons.mp hc with h3 | h4
              · subst h3; simpa using hx
              · exact ih v (hsp ▸ List.mem_cons_self v vs) c h4
            · exact ih w (hsp ▸ List.mem_cons.mpr (Or.inr h2)) c hc

theorem mem_pwords_no_ws {w : List Char} {s : List Char} (h : w ∈ pwords s) :
    ∀ c ∈ w, c.isWhitespace = false := by
  have hmem := List.mem_of_mem_filter h
  exact mem_splitOnP_no_sep (fun c => c.isWhitespace) s w hmem

/-- A nonempty whitespace-free string is its own single word. -/
theorem pwords_eq_single {w : List Char} (h1 : w ≠ [])
    (h2 : ∀ c ∈ w, c.isWhitespace = false) : pwords w = [w] := by
  have : w.splitOnP (fun c => c.isWhitespace) = [w] := by
    apply List.splitOnP_eq_single
    intro x hx
    simp [h2 x hx]
  simp [pwords, this, h1]

theorem flatten_map_singleton (l : List (List Char)) :
    (l.map (fun w => [w])).flatten = l := by
  induction l with
  | nil => simp
  | cons x t ih => simp [ih]

/-- Joining a list of nonempty whitespace-free words and re-splitting
recovers the same list of words. -/
theorem pwords_pjoin_clean (l : List (List Char))
    (h : ∀ w ∈ l, w ≠ [] ∧ ∀ c ∈ w, c.isWhitespace = false) :
    pwords (pjoin l) = l := by
  rw [pwords_pjoin]
  have hmap : l.map pwords = l.map (fun w => [w]) := by
    apply List.map_congr_left
    intro w hw
    exact pwords_eq_single (h w hw).1 (h w hw).2
  rw [hmap, flatten_map_singleton]

/-- Every word produced by `pwords` is nonempty and whitespace-free. -/
theorem pwords_clean (s : List Char) :
    ∀ w ∈ pwords s, w ≠ [] ∧ ∀ c ∈ w, c.isWhitespace = false :=
  fun w hw => ⟨mem_pwords_ne_nil hw, mem_pwords_no_ws hw⟩

theorem pwords_append_words (l : List (List Char)) (s : List Char) :
    pwords (pjoin (l ++ [s])) = pwords (pjoin l) ++ pwords s := by
  rw [pwords_pjoin, pwords_pjoin]
  simp

/-!
### Chunker (`backend/chunker.py`, `chunk_text`)

The NLTK sentence tokenizer is an external collaborator; `chunk_text` is
embedded as a function of the sentence list it produces.  The loop state
mirrors the Python locals `chunks`, `current_chunk`, `current_length`.
-/

structure ChunkerState where
  chunks : List (List Char)
  current_chunk : List (List Char)
  current_length : Nat

/-- One iteration of the `for sentence in sentences` loop of `chunk_text`. -/
def chunkStep (chunk_size overlap : Nat) (st : ChunkerState) (sentence : List Char) :
    ChunkerState :=
  let word_count := (pwords sentence).length
  if st.current_length + word_count ≤ chunk_size then
    ⟨st.chunks, st.current_chunk ++ [sentence], st.current_length + word_count⟩
  else
    let chunks1 :=
      if st.current_chunk = [] then st.chunks else st.chunks ++ [pjoin st.current_chunk]
    if 0 < overlap ∧ st.current_chunk ≠ [] then
      let w := pwords (pjoin st.current_chunk)
      let overlap_words := w.drop (w.length - overlap)
      ⟨chunks1, [pjoin overlap_words, sentence], overlap_words.length + word_count⟩
    else
      ⟨chunks1, [sentence], word_count⟩

/-- `chunk_text` from `backend/chunker.py`: greedy sentence accumulation with
word-level overlap carry-over, followed by flushing the final chunk. -/
def chunk_text (sentences : List (List Char)) (chunk_size : Nat := 200)
    (overlap : Nat := 50) : List (List Char) :=
  let st := sentences.foldl (chunkStep chunk_size overlap) ⟨[], [], 0⟩
  if st.current_chunk = [] then st.chunks else st.chunks ++ [pjoin st.current_chunk]

example : chunk_text [] 200 50 = [] := by decide
example : chunk_text ["Hi".toList] 200 50 = ["Hi".toList] := by decide
example :
    chunk_text ["a b c d e f g h i j".toList, "k l m n o p q r".toList] 10 5 =
      ["a b c d e f g h i j".toList, "f g h i j k l m n o p q r".toList] := by decide

/-- Words of the in-progress chunk of a chunker state. -/
def curWords (st : ChunkerState) : List (List Char) :=
  pwords (pjoin st.current_chunk)

/-- Loop invariant used for the minimum-content property: every closed chunk
has at least one word, and so does a nonempty in-progress chunk. -/
def InvWords (st : ChunkerState) : Prop :=
  (st.current_chunk ≠ [] → curWords st ≠ []) ∧ ∀ c ∈ st.chunks, pwords c ≠ []

theorem pwords_pjoin_pair (a s : List Char) :
    pwords (pjoin [a, s]) = pwords a ++ pwords s := by
  rw [pwords_pjoin]
  simp

theorem chunkStep_invWords (cs ov : Nat) (st : ChunkerState) (s : List Char)
    (hs : pwords s ≠ []) (h : InvWords st) : InvWords (chunkStep cs ov st s) := by
  unfold chunkStep
  by_cases h1 : st.current_length + (pwords s).length ≤ cs
  · rw [if_pos h1]
    refine ⟨fun _ => ?_, h.2⟩
    unfold curWords
    dsimp only
    rw [pwords_append_words]
    intro hcontra
    exact hs (List.append_eq_nil.mp hcontra).2
  · rw [if_neg h1]
    have hchunks1 : ∀ c ∈ (if st.current_chunk = [] then st.chunks
        else st.chunks ++ [pjoin st.current_chunk]), pwords c ≠ [] := by
      by_cases hcur : st.current_chunk = []
      · simpa [hcur] using h.2
      · rw [if_neg hcur]
        intro c hc
        rcases List.mem_append.mp hc with h2 | h2
        · exact h.2 c h2
        · rcases List.mem_singleton.mp h2 with rfl
          exact h.1 hcur
    by_cases h2 : 0 < ov ∧ st.current_chunk ≠ []
    · rw [if_pos h2]
      refine ⟨fun _ => ?_, hchunks1⟩
      unfold curWords
      dsimp only
      rw [pwords_pjoin_pair]
      intro hcontra
      exact hs (List.append_eq_nil.mp hcontra).2
    · rw [if_neg h2]
      refine ⟨fun _ => ?_, hchunks1⟩
      unfold curWords
      dsimp only
      rw [pjoin_single]
      exact hs

theorem foldl_invWords (cs ov : Nat) :
    ∀ (l : List (List Char)) (st : ChunkerState),
      (∀ s ∈ l, pwords s ≠ []) → InvWords st →
      InvWords (l.foldl (chunkStep cs ov) st) := by
  intro l
  induction l with
  | nil => intro st _ h; exact h
  | cons s t ih =>
      intro st hl h
      exact ih _ (fun x hx => hl x (List.mem_cons.mpr (Or.inr hx)))
        (chunkStep_invWords cs ov st s (hl s (List.mem_cons_self s t)) h)

/-- If every input sentence contains at least one word, every chunk returned
by `chunk_text` contains at least one word (hence at least one character). -/
theorem chunk_text_ne_nil (sentences : List (List Char)) (cs ov : Nat)
    (h : ∀ s ∈ sentences, pwords s ≠ []) :
    ∀ c ∈ chunk_text sentences cs ov, pwords c ≠ [] ∧ c ≠ [] := by
  have hinv : InvWords (sentences.foldl (chunkStep cs ov) ⟨[], [], 0⟩) :=
    foldl_invWords cs ov sentences ⟨[], [], 0⟩ h
      ⟨fun hcontra => absurd rfl hcontra, by intro c hc; simp at hc⟩
  intro c hc
  have hw : pwords c ≠ [] := by
    unfold chunk_text at hc
    by_cases hcur : (sentences.foldl (chunkStep cs ov) ⟨[], [], 0⟩).current_chunk = []
    · rw [if_pos hcur] at hc
      exact hinv.2 c hc
    · rw [if_neg hcur] at hc
      rcases List.mem_append.mp hc with h2 | h2
      · exact hinv.2 c h2
      · rcases List.mem_singleton.mp h2 with rfl
        exact hinv.1 hcur
  refine ⟨hw, fun hcontra => ?_⟩
  rw [hcontra, pwords_nil] at hw
  exact hw rfl

/-- Loop invariant for the size bound: `current_length` tracks the word count
of the in-progress chunk, which stays within `chunk_size + overlap`, as does
every closed chunk. -/
def InvBound (cs ov : Nat) (st : ChunkerState) : Prop :=
  st.current_length = (curWords st).length ∧
  (curWords st).length ≤ cs + ov ∧
  ∀ c ∈ st.chunks, (pwords c).length ≤ cs + ov

theorem chunkStep_invBound (cs ov : Nat) (st : ChunkerState) (s : List Char)
    (hs : (pwords s).length ≤ cs) (h : InvBound cs ov st) :
    InvBound cs ov (chunkStep cs ov st s) := by
  obtain ⟨hlen, hcurb, hchb⟩ := h
  unfold chunkStep
  by_cases h1 : st.current_length + (pwords s).length ≤ cs
  · rw [if_pos h1]
    unfold InvBound curWords at *
    dsimp only
    rw [pwords_append_words]
    refine ⟨?_, ?_, hchb⟩
    · simp [hlen]
    · rw [hlen] at h1
      calc (pwords (pjoin st.current_chunk) ++ pwords s).length
          = (pwords (pjoin st.current_chunk)).length + (pwords s).length :=
            List.length_append _ _
        _ ≤ cs := h1
        _ ≤ cs + ov := Nat.le_add_right cs ov
  · rw [if_neg h1]
    have hchunks1 : ∀ c ∈ (if st.current_chunk = [] then st.chunks
        else st.chunks ++ [pjoin st.current_chunk]), (pwords c).length ≤ cs + ov := by
      by_cases hcur : st.current_chunk = []
      · simpa [hcur] using hchb
      · rw [if_neg hcur]
        intro c hc
        rcases List.mem_append.mp hc with h2 | h2
        · exact hchb c h2
        · rcases List.mem_singleton.mp h2 with rfl
          exact hcurb
    by_cases h2 : 0 < ov ∧ st.current_chunk ≠ []
    · rw [if_pos h2]
      have hclean : ∀ w ∈ (pwords (pjoin st.current_chunk)).drop
          ((pwords (pjoin st.current_chunk)).length - ov),
          w ≠ [] ∧ ∀ c ∈ w, c.isWhitespace = false := by
        intro w hw
        exact pwords_clean (pjoin st.current_chunk) w (List.mem_of_mem_drop hw)
      have hdrop : ((pwords (pjoin st.current_chunk)).drop
          ((pwords (pjoin st.current_chunk)).length - ov)).length ≤ ov := by
        rw [List.length_drop]
        omega
      refine ⟨?_, ?_, hchunks1⟩
      · unfold curWords
        dsimp only
        rw [pwords_pjoin_pair, pwords_pjoin_clean _ hclean]
        simp
      · unfold curWords
        dsimp only
        rw [pwords_pjoin_pair, pwords_pjoin_clean _ hclean]
        calc ((pwords (pjoin st.current_chunk)).drop
              ((pwords (pjoin st.current_chunk)).length - ov) ++ pwords s).length
            = ((pwords (pjoin st.current_chunk)).drop
              ((pwords (pjoin st.current_chunk)).length - ov)).length + (pwords s).length :=
              List.length_append _ _
          _ ≤ ov + cs := Nat.add_le_add hdrop hs
          _ = cs + ov := Nat.add_comm ov cs
    · rw [if_neg h2]
      refine ⟨?_, ?_, hchunks1⟩
      · unfold curWords
        dsimp only
        rw [pjoin_single]
      · unfold curWords
        dsimp only
        rw [pjoin_single]
        exact Nat.le_trans hs (Nat.le_add_right cs ov)

theorem foldl_invBound (cs ov : Nat) :
    ∀ (l : List (List Char)) (st : ChunkerState),
      (∀ s ∈ l, (pwords s).length ≤ cs) → InvBound cs ov st →
      InvBound cs ov (l.foldl (chunkStep cs ov) st) := by
  intro l
  induction l with
  | nil => intro st _ h; exact h
  | cons s t ih =>
      intro st hl h
      exact ih _ (fun x hx => hl x (List.mem_cons.mpr (Or.inr hx)))
        (chunkStep_invBound cs ov st s (hl s (List.mem_cons_self s t)) h)

/-- If every input sentence has at most `chunk_size` words, every chunk
returned by `chunk_text` has at most `chunk_size + overlap` words. -/
theorem chunk_text_word_bound (sentences : List (List Char)) (cs ov : Nat)
    (h : ∀ s ∈ sentences, (pwords s).length ≤ cs) :
    ∀ c ∈ chunk_text sentences cs ov, (pwords c).length ≤ cs + ov := by
  have hinit : InvBound cs ov ⟨[], [], 0⟩ := by
    refine ⟨?_, ?_, ?_⟩
    · simp [curWords, pjoin_nil, pwords_nil]
    · simp [curWords, pjoin_nil, pwords_nil]
    · intro c hc; simp at hc
  have hinv := foldl_invBound cs ov sentences ⟨[], [], 0⟩ h hinit
  intro c hc
  unfold chunk_text at hc
  by_cases hcur : (sentences.foldl (chunkStep cs ov) ⟨[], [], 0⟩).current_chunk = []
  · rw [if_pos hcur] at hc
    exact hinv.2.2 c hc
  · rw [if_neg hcur] at hc
    rcases List.mem_append.mp hc with h2 | h2
    · exact hinv.2.2 c h2
    · rcases List.mem_singleton.mp h2 with rfl
      exact hinv.2.1

/-!
### Reconstruction of the word sequence (overlap-aware)

Each chunk after the first is seeded with the trailing `overlap` words of its
predecessor; `dedupWords` removes exactly that repeated seed from each chunk
before concatenating.
-/

/-- Deduplicated word concatenation of the chunks following `prev`. -/
def dedupFrom (ov : Nat) (prev : List Char) : List (List Char) → List (List Char)
  | [] => []
  | c :: rest => (pwords c).drop (min ov (pwords prev).length) ++ dedupFrom ov c rest

/-- Concatenate the chunks' words, dropping from every chunk after the first
the `min overlap (predecessor word count)` seed words repeated from the end
of its predecessor. -/
def dedupWords (ov : Nat) : List (List Char) → List (List Char)
  | [] => []
  | c :: rest => pwords c ++ dedupFrom ov c rest

/-- The chunk list a chunker state would produce if the loop stopped now. -/
def outChunks (st : ChunkerState) : List (List Char) :=
  if st.current_chunk = [] then st.chunks else st.chunks ++ [pjoin st.current_chunk]

/-- Chunk `b` starts with exactly the trailing `overlap` words of chunk `a`. -/
def seedRel (ov : Nat) (a b : List Char) : Prop :=
  (pwords b).take (min ov (pwords a).length) =
    (pwords a).drop ((pwords a).length - ov)

theorem dedupFrom_append (ov : Nat) (c : List Char) :
    ∀ (l : List (List Char)) (prev : List Char),
      dedupFrom ov prev (l ++ [c]) =
        dedupFrom ov prev l ++ (pwords c).drop (min ov (pwords (l.getLastD prev)).length) := by
  intro l
  induction l with
  | nil => intro prev; simp [dedupFrom]
  | cons x t ih =>
      intro prev
      simp only [List.cons_append, dedupFrom, List.append_eq, List.getLastD_cons, ih,
        List.append_assoc]

theorem dedupWords_append (ov : Nat) (x c : List Char) (t : List (List Char)) :
    dedupWords ov ((x :: t) ++ [c]) =
      dedupWords ov (x :: t) ++ (pwords c).drop (min ov (pwords ((x :: t).getLastD [])).length) := by
  simp only [List.cons_append, dedupWords, List.getLastD_cons, dedupFrom_append, List.append_assoc]

/-- Extending the final chunk by further words extends the deduplicated word
sequence by the same words. -/
theorem dedupWords_grow (ov : Nat) (l : List (List Char)) (c c' : List Char)
    (X : List (List Char)) (hc : pwords c' = pwords c ++ X)
    (hk : l ≠ [] → min ov (pwords (l.getLastD [])).length ≤ (pwords c).length) :
    dedupWords ov (l ++ [c']) = dedupWords ov (l ++ [c]) ++ X := by
  cases l with
  | nil => simp [dedupWords, dedupFrom, hc]
  | cons x t =>
      rw [dedupWords_append, dedupWords_append, hc,
        List.drop_append_of_le_length (hk (List.cons_ne_nil x t)), List.append_assoc]

theorem chain'_concat_of (R : List Char → List Char → Prop) (l : List (List Char))
    (c c' : List Char) (h : (l ++ [c]).Chain' R) (hcc : R c c') :
    ((l ++ [c]) ++ [c']).Chain' R := by
  rw [List.chain'_append]
  refine ⟨h, List.chain'_singleton c', ?_⟩
  intro x hx y hy
  rw [List.getLast?_concat] at hx
  simp only [List.head?_cons, Option.mem_def, Option.some.injEq] at hx hy
  rw [← hx, ← hy]
  exact hcc

theorem chain'_grow_last (ov : Nat) (l : List (List Char)) (c c' : List Char)
    (X : List (List Char)) (hc : pwords c' = pwords c ++ X)
    (hk : l ≠ [] → min ov (pwords (l.getLastD [])).length ≤ (pwords c).length)
    (h : (l ++ [c]).Chain' (seedRel ov)) : (l ++ [c']).Chain' (seedRel ov) := by
  rw [List.chain'_append] at h ⊢
  refine ⟨h.1, List.chain'_singleton c', ?_⟩
  intro x hx y hy
  simp only [List.head?_cons, Option.mem_def, Option.some.injEq] at hy
  have hrel := h.2.2 x hx c (by simp)
  have hlast : l.getLastD [] = x := by
    cases l with
    | nil => simp at hx
    | cons z t =>
        have : (z :: t).getLast? = some x := hx
        rw [List.getLastD_eq_getLast?, this]
        rfl
  have hkx : min ov (pwords x).length ≤ (pwords c).length := by
    rw [← hlast]
    exact hk (by rintro rfl; simp at hx)
  rw [← hy]
  unfold seedRel at hrel ⊢
  rw [hc, List.take_append_of_le_length hkx]
  exact hrel

theorem dedupWords_append_ne (ov : Nat) (c : List Char) (l : List (List Char)) (hl : l ≠ []) :
    dedupWords ov (l ++ [c]) =
      dedupWords ov l ++ (pwords c).drop (min ov (pwords (l.getLastD [])).length) := by
  cases l with
  | nil => exact absurd rfl hl
  | cons x t => exact dedupWords_append ov x c t

theorem outChunks_mk (ch cur : List (List Char)) (n : Nat) (h : cur ≠ []) :
    outChunks ⟨ch, cur, n⟩ = ch ++ [pjoin cur] := by
  unfold outChunks
  exact if_neg h

theorem curWords_mk (ch cur : List (List Char)) (n : Nat) :
    curWords ⟨ch, cur, n⟩ = pwords (pjoin cur) := rfl

/-- Loop invariant for reconstruction: an empty in-progress chunk means no
chunk was closed yet; once a chunk is closed, the in-progress chunk contains
at least the seed carried over from it; and adjacent produced chunks satisfy
the seed relation. -/
def InvRec (ov : Nat) (st : ChunkerState) : Prop :=
  (st.current_chunk = [] → st.chunks = []) ∧
  (st.chunks ≠ [] → st.current_chunk ≠ [] ∧
    min ov (pwords (st.chunks.getLastD [])).length ≤ (curWords st).length) ∧
  (outChunks st).Chain' (seedRel ov)

theorem chunkStep_rec (cs ov : Nat) (st : ChunkerState) (s : List Char)
    (h : InvRec ov st) :
    InvRec ov (chunkStep cs ov st s) ∧
    dedupWords ov (outChunks (chunkStep cs ov st s)) =
      dedupWords ov (outChunks st) ++ pwords s := by
  obtain ⟨hemp, hlastb, hchain⟩ := h
  unfold chunkStep
  by_cases h1 : st.current_length + (pwords s).length ≤ cs
  · rw [if_pos h1]
    have hout' : outChunks ⟨st.chunks, st.current_chunk ++ [s],
        st.current_length + (pwords s).length⟩ =
        st.chunks ++ [pjoin (st.current_chunk ++ [s])] :=
      outChunks_mk _ _ _ (by simp)
    by_cases hcur : st.current_chunk = []
    · have hch : st.chunks = [] := hemp hcur
      constructor
      · refine ⟨fun hc => hch, fun hc => absurd hch hc, ?_⟩
        rw [hout', hch, hcur]
        simp [List.chain'_singleton]
      · rw [hout', hch, hcur, outChunks, if_pos hcur, hch]
        simp [dedupWords, dedupFrom, pjoin_single, pwords_append_words, pjoin_nil, pwords_nil]
    · have houts : outChunks st = st.chunks ++ [pjoin st.current_chunk] := by
        unfold outChunks
        exact if_neg hcur
      have hgrow := pwords_append_words st.current_chunk s
      have hk : st.chunks ≠ [] →
          min ov (pwords (st.chunks.getLastD [])).length ≤
            (pwords (pjoin st.current_chunk)).length := by
        intro hc
        exact (hlastb hc).2
      constructor
      · refine ⟨fun hc => absurd hc (by simp), fun hc => ⟨by simp, ?_⟩, ?_⟩
        · rw [curWords_mk, hgrow, List.length_append]
          exact Nat.le_trans (hk hc) (Nat.le_add_right _ _)
        · rw [hout']
          exact chain'_grow_last ov st.chunks (pjoin st.current_chunk) _ (pwords s)
            hgrow hk (houts ▸ hchain)
      · rw [hout', houts]
        exact dedupWords_grow ov st.chunks (pjoin st.current_chunk) _ (pwords s) hgrow hk
  · rw [if_neg h1]
    by_cases h2 : 0 < ov ∧ st.current_chunk ≠ []
    · rw [if_pos h2]
      obtain ⟨hov, hcur⟩ := h2
      rw [if_neg hcur]
      have houts : outChunks st = st.chunks ++ [pjoin st.current_chunk] := by
        unfold outChunks
        exact if_neg hcur
      have hclean : ∀ w ∈ (pwords (pjoin st.current_chunk)).drop
          ((pwords (pjoin st.current_chunk)).length - ov),
          w ≠ [] ∧ ∀ c ∈ w, c.isWhitespace = false :=
        fun w hw => pwords_clean (pjoin st.current_chunk) w (List.mem_of_mem_drop hw)
      have howlen : ((pwords (pjoin st.current_chunk)).drop
          ((pwords (pjoin st.current_chunk)).length - ov)).length =
          min ov (pwords (pjoin st.current_chunk)).length := by
        rw [List.length_drop]
        omega
      have hpc : pwords (pjoin [pjoin ((pwords (pjoin st.current_chunk)).drop
          ((pwords (pjoin st.current_chunk)).length - ov)), s]) =
          (pwords (pjoin st.current_chunk)).drop
            ((pwords (pjoin st.current_chunk)).length - ov) ++ pwords s := by
        rw [pwords_pjoin_pair, pwords_pjoin_clean _ hclean]
      have hout' : outChunks ⟨st.chunks ++ [pjoin st.current_chunk],
          [pjoin ((pwords (pjoin st.current_chunk)).drop
            ((pwords (pjoin st.current_chunk)).length - ov)), s],
          ((pwords (pjoin st.current_chunk)).drop
            ((pwords (pjoin st.current_chunk)).length - ov)).length + (pwords s).length⟩ =
          (st.chunks ++ [pjoin st.current_chunk]) ++
            [pjoin [pjoin ((pwords (pjoin st.current_chunk)).drop
              ((pwords (pjoin st.current_chunk)).length - ov)), s]] :=
        outChunks_mk _ _ _ (by simp)
      have hseed : seedRel ov (pjoin st.current_chunk)
          (pjoin [pjoin ((pwords (pjoin st.current_chunk)).drop
            ((pwords (pjoin st.current_chunk)).length - ov)), s]) := by
        unfold seedRel
        rw [hpc, ← howlen, List.take_left]
      constructor
      · refine ⟨fun hc => absurd hc (by simp), fun hc => ⟨by simp, ?_⟩, ?_⟩
        · rw [curWords_mk, hpc, List.getLastD_concat, List.length_append, howlen]
          exact Nat.le_add_right _ _
        · rw [hout']
          exact chain'_concat_of (seedRel ov) st.chunks (pjoin st.current_chunk) _
            (houts ▸ hchain) hseed
      · rw [hout', houts, dedupWords_append_ne ov _ _ (by simp), List.getLastD_concat,
          hpc, ← howlen, List.drop_left]
    · rw [if_neg h2]
      by_cases hcur : st.current_chunk = []
      · rw [if_pos hcur]
        have hch : st.chunks = [] := hemp hcur
        have hout' : outChunks ⟨st.chunks, [s], (pwords s).length⟩ =
            st.chunks ++ [pjoin [s]] := outChunks_mk _ _ _ (by simp)
        constructor
        · refine ⟨fun hc => hch, fun hc => absurd hch hc, ?_⟩
          rw [hout', hch]
          simp [List.chain'_singleton]
        · rw [hout', hch, outChunks, if_pos hcur, hch]
          simp [dedupWords, dedupFrom, pjoin_single]
      · rw [if_neg hcur]
        have hov : ov = 0 := by
          rcases Nat.eq_zero_or_pos ov with h | h
          · exact h
          · exact absurd ⟨h, hcur⟩ h2
        have houts : outChunks st = st.chunks ++ [pjoin st.current_chunk] := by
          unfold outChunks
          exact if_neg hcur
        have hout' : outChunks ⟨st.chunks ++ [pjoin st.current_chunk], [s],
            (pwords s).length⟩ =
            (st.chunks ++ [pjoin st.current_chunk]) ++ [pjoin [s]] :=
          outChunks_mk _ _ _ (by simp)
        have hseed : seedRel ov (pjoin st.current_chunk) (pjoin [s]) := by
          unfold seedRel
          rw [hov]
          simp [List.drop_length]
        constructor
        · refine ⟨fun hc => absurd hc (by simp), fun hc => ⟨by simp, ?_⟩, ?_⟩
          · rw [hov]
            simp
          · rw [hout']
            exact chain'_concat_of (seedRel ov) st.chunks (pjoin st.current_chunk) _
              (houts ▸ hchain) hseed
        · rw [hout', houts, dedupWords_append_ne ov _ _ (by simp), hov]
          simp [pjoin_single]

theorem foldl_rec (cs ov : Nat) :
    ∀ (l : List (List Char)) (st : ChunkerState), InvRec ov st →
      InvRec ov (l.foldl (chunkStep cs ov) st) ∧
      dedupWords ov (outChunks (l.foldl (chunkStep cs ov) st)) =
        dedupWords ov (outChunks st) ++ (l.map pwords).flatten := by
  intro l
  induction l with
  | nil => intro st h; exact ⟨h, by simp⟩
  | cons s t ih =>
      intro st h
      have hstep := chunkStep_rec cs ov st s h
      have hrest := ih (chunkStep cs ov st s) hstep.1
      refine ⟨hrest.1, ?_⟩
      rw [List.foldl_cons] at *
      rw [hrest.2, hstep.2]
      simp [List.append_assoc]

theorem chunk_text_eq_outChunks (sentences : List (List Char)) (cs ov : Nat) :
    chunk_text sentences cs ov =
      outChunks (sentences.foldl (chunkStep cs ov) ⟨[], [], 0⟩) := rfl

/-- Reconstruction: dropping from every chunk the seed words repeated from
its predecessor and concatenating recovers exactly the input word sequence;
moreover each chunk does begin with the trailing overlap words of its
predecessor. -/
theorem chunk_text_reconstruct (sentences : List (List Char)) (cs ov : Nat) :
    dedupWords ov (chunk_text sentences cs ov) = (sentences.map pwords).flatten ∧
    (chunk_text sentences cs ov).Chain' (seedRel ov) := by
  have h0 : InvRec ov ⟨[], [], 0⟩ := by
    refine ⟨fun _ => rfl, fun hc => absurd rfl hc, ?_⟩
    unfold outChunks
    simp
  have hmain := foldl_rec cs ov sentences ⟨[], [], 0⟩ h0
  rw [chunk_text_eq_outChunks]
  constructor
  · rw [hmain.2]
    have : outChunks ⟨[], [], 0⟩ = [] := by
      unfold outChunks
      simp
    rw [this]
    simp [dedupWords]
  · exact hmain.1.2.2

/-!
### Chat history (`backend/chat_history.py`)

A stored chat turn is the payload written by `store_chat_turn`.  The Qdrant
scroll call is an external collaborator: `retrieve_chat_context` receives its
outcome (a record list, in whatever order and up to whatever limit the store
produced, or an error) and performs the client-side processing transcribed
from the source: collect payloads, re-sort by `turn_number`, format, join.
-/

structure ChatPayload where
  session_id : List Char
  role : List Char
  message : List Char
  turn_number : Int
  timestamp : List Char
deriving DecidableEq

structure ChatRecord where
  payload : Option ChatPayload
deriving DecidableEq

/-- Python `str.capitalize()`: first character uppercased, rest lowercased. -/
def pcapitalize : List Char → List Char
  | [] => []
  | c :: rest => c.toUpper :: rest.map Char.toLower

/-- Comparison key of the client-side re-sort:
`chat_turns.sort(key=lambda x: x.get("turn_number", 0))`. -/
def turnLE (a b : ChatPayload) : Prop :=
  a.turn_number ≤ b.turn_number

instance : DecidableRel turnLE :=
  fun a b => inferInstanceAs (Decidable (a.turn_number ≤ b.turn_number))

instance : IsTotal ChatPayload turnLE :=
  ⟨fun a b => Int.le_total a.turn_number b.turn_number⟩

instance : IsTrans ChatPayload turnLE :=
  ⟨fun _ _ _ hab hbc => Int.le_trans hab hbc⟩

/-- One formatted history line: `f"{role.capitalize()}: {message}"`. -/
def format_turn (t : ChatPayload) : List Char :=
  pcapitalize t.role ++ ':' :: ' ' :: t.message

/-- The body of `retrieve_chat_context` after a successful scroll: keep the
records with a payload, sort ascending by turn number (Python `list.sort` is
a stable comparison sort, modelled by insertion sort), format the turns that
have a nonempty role and message, and join the lines with newlines. -/
def formatted_history (records : List ChatRecord) : List Char :=
  let chat_turns := records.filterMap (fun r => r.payload)
  let sorted_turns := List.insertionSort turnLE chat_turns
  let lines := (sorted_turns.filter
    (fun t => t.role ≠ [] ∧ t.message ≠ [])).map format_turn
  List.intercalate ['\n'] lines

/-- `retrieve_chat_context`: the whole body runs under `try`; any error from
the store is caught and yields the empty string. -/
def retrieve_chat_context (scroll_outcome : Except (List Char) (List ChatRecord)) :
    List Char :=
  match scroll_outcome with
  | Except.error _ => []
  | Except.ok records => formatted_history records

example :
    formatted_history
      [⟨some ⟨"s".toList, "user".toList, "q3".toList, 3, []⟩⟩,
       ⟨some ⟨"s".toList, "user".toList, "q1".toList, 1, []⟩⟩,
       ⟨some ⟨"s".toList, "assistant".toList, "a2".toList, 2, []⟩⟩] =
      "User: q1\nAssistant: a2\nUser: q3".toList := by decide

/-!
### Retrieval orchestrator (`backend/main.py`)
-/

/-- Turn-number computation in `chat.stream_response`:
`(len(chat_context.split("\n")) // 2) + 1 if chat_context else 1`.
`str.split("\n")` keeps empty fragments, modelled by `splitOnP`. -/
def turn_number_for (chat_context : List Char) : Nat :=
  if chat_context ≠ [] then
    (chat_context.splitOnP (fun c => c == '\n')).length / 2 + 1
  else 1

inductive StreamEvent where
  | stored (session_id role message : List Char) (turn : Nat)
  | streamed (token : List Char)
deriving DecidableEq

/-- The tokens that survive the guard
`if chunk.choices and ... and choice.delta.content`. -/
def stream_tokens (llm_chunks : List (Option (List Char))) : List (List Char) :=
  (llm_chunks.filterMap id).filter (fun t => t ≠ [])

/-- The loop of `stream_response`, accumulating `full_response` and the
emitted events. -/
def stream_loop (llm_chunks : List (Option (List Char)))
    (acc : List Char × List StreamEvent) : List Char × List StreamEvent :=
  llm_chunks.foldl
    (fun acc chunk =>
      match chunk with
      | some token =>
          if token ≠ [] then (acc.1 ++ token, acc.2 ++ [StreamEvent.streamed token])
          else acc
      | none => acc)
    acc

/-- `stream_response` in `backend/main.py`, as the sequence of externally
visible events it performs: the user turn is stored first, each nonempty
token is yielded while being accumulated, and the accumulated assistant
response is stored last, under the same turn number. -/
def stream_response (session_id question chat_context : List Char)
    (llm_chunks : List (Option (List Char))) : List StreamEvent :=
  let turn_number := turn_number_for chat_context
  let loop := stream_loop llm_chunks ([], [])
  StreamEvent.stored session_id "user".toList question turn_number ::
    (loop.2 ++ [StreamEvent.stored session_id "assistant".toList loop.1 turn_number])

theorem stream_loop_spec (llm_chunks : List (Option (List Char))) :
    ∀ (full : List Char) (evs : List StreamEvent),
      stream_loop llm_chunks (full, evs) =
        (full ++ (stream_tokens llm_chunks).flatten,
          evs ++ (stream_tokens llm_chunks).map StreamEvent.streamed) := by
  induction llm_chunks with
  | nil => intro full evs; simp [stream_loop, stream_tokens]
  | cons c rest ih =>
      intro full evs
      cases c with
      | none =>
          have h1 : stream_loop (none :: rest) (full, evs) = stream_loop rest (full, evs) := rfl
          rw [h1, ih]
          simp [stream_tokens, List.filterMap_cons]
      | some token =>
          by_cases ht : token = []
          · have h1 : stream_loop (some token :: rest) (full, evs) =
                stream_loop rest (full, evs) := by
              simp [stream_loop, ht]
            rw [h1, ih]
            simp [stream_tokens, List.filterMap_cons, List.filter_cons, ht]
          · have h1 : stream_loop (some token :: rest) (full, evs) =
                stream_loop rest (full ++ token, evs ++ [StreamEvent.streamed token]) := by
              simp [stream_loop, ht]
            rw [h1, ih]
            simp [stream_tokens, List.filterMap_cons, List.filter_cons, ht]

/-!
### Knowledge base (`backend/embed_utils.py`, `backend/main.py`)

The embedding model and the vector database are external collaborators.  An
upsert appends the constructed points to the collection; a search applies the
query filter to the stored points and then ranks the survivors by the
similarity score of their (external) embedding against the (external) query
embedding, returning at most `top_k` — the score enters as an arbitrary
function, since claim-level correctness cannot depend on its values.
-/

structure Document where
  text : List Char
  source : List Char
  file_type : List Char
  chunk_id : List Char
deriving DecidableEq

structure KBPoint where
  chunk_id : List Char
  text : List Char
  session_id : List Char
  upload_timestamp : List Char
  file_type : List Char
  source : List Char
deriving DecidableEq

/-- `embed_and_store_chunks`: each document becomes one point whose payload
carries its text, provenance metadata and the given session id. -/
def embed_and_store_chunks (documents : List Document) (session_id : List Char)
    (upload_timestamp : List Char) : List KBPoint :=
  documents.map (fun doc =>
    { chunk_id := doc.chunk_id, text := doc.text, session_id := session_id,
      upload_timestamp := upload_timestamp, file_type := doc.file_type,
      source := doc.source })

/-- The filter constructed in `search_knowledge_base`: a mandatory equality
condition on the `session_id` payload field. -/
def session_filter (session_id : List Char) (p : KBPoint) : Bool :=
  p.session_id = session_id

/-- The relation ranking higher-scored points first. -/
def scoreGE (score : KBPoint → Int) (a b : KBPoint) : Prop :=
  score b ≤ score a

instance (score : KBPoint → Int) : DecidableRel (scoreGE score) :=
  fun a b => inferInstanceAs (Decidable (score b ≤ score a))

/-- The vector database search contract: apply the payload filter, rank the
survivors by similarity (best first), return at most `top_k`. -/
def qdrant_search (store : List KBPoint) (score : KBPoint → Int)
    (flt : KBPoint → Bool) (top_k : Nat) : List KBPoint :=
  ((store.filter flt).insertionSort (scoreGE score)).take top_k

/-- The hits inspected by `search_knowledge_base`: a blank query short-
circuits to no hits, otherwise the session-filtered ranked search runs. -/
def search_hits (store : List KBPoint) (score : KBPoint → Int)
    (query_text session_id : List Char) (top_k : Nat) : List KBPoint :=
  if pwords query_text = [] then []
  else qdrant_search store score (session_filter session_id) top_k

/-- `search_knowledge_base`: the texts of the hits joined by blank lines
(empty when there is no hit). -/
def search_knowledge_base (store : List KBPoint) (score : KBPoint → Int)
    (query_text session_id : List Char) (top_k : Nat) : List Char :=
  List.intercalate ['\n', '\n'] ((search_hits store score query_text session_id top_k).map
    (fun h => h.text))

/-- `upload_document` (`backend/main.py`): the extracted chunks are stored
under the supplied session id; when the form field is absent FastAPI
substitutes the declared default `Form("global")`. -/
def upload_document (docs : List Document) (session_id : Option (List Char))
    (upload_timestamp : List Char) : List KBPoint :=
  embed_and_store_chunks docs (session_id.getD "global".toList) upload_timestamp

theorem mem_search_hits_filter (store : List KBPoint) (score : KBPoint → Int)
    (query_text session_id : List Char) (top_k : Nat) :
    ∀ p ∈ search_hits store score query_text session_id top_k,
      p ∈ store ∧ p.session_id = session_id := by
  intro p hp
  unfold search_hits at hp
  by_cases hq : pwords query_text = []
  · rw [if_pos hq] at hp
    simp at hp
  · rw [if_neg hq] at hp
    unfold qdrant_search at hp
    have hmem := List.mem_of_mem_take hp
    have hperm := List.perm_insertionSort (scoreGE score)
      (store.filter (session_filter session_id))
    have hfil : p ∈ store.filter (session_filter session_id) := hperm.mem_iff.mp hmem
    refine ⟨List.mem_of_mem_filter hfil, ?_⟩
    have := List.of_mem_filter hfil
    unfold session_filter at this
    simpa using this

/-!
### Store state machine (`backend/qdrant_client.py`, `backend/session_utils.py`,
write/read paths of the other modules)

The two Qdrant collections as mutated by the operations of the backend:
uploads and chat-turn writes append, `delete_session_data` deletes by the
session filter in both collections, module initialization of
`backend.qdrant_client` ends by calling `clean_collections()`, which deletes
every point of both collections (`FilterSelector(filter=Filter())` matches
all points), and the read paths touch nothing.
-/

structure StoreState where
  rag_collection : List KBPoint
  chat_history_collection : List ChatPayload
deriving DecidableEq

inductive Op where
  | upload (docs : List Document) (session_id : Option (List Char)) (ts : List Char)
  | store_chat_turn (session_id role message : List Char) (turn_number : Int)
      (timestamp : List Char)
  | delete_session_data (session_id : List Char)
  | backend_startup
  | search_read (query_text session_id : List Char)
  | retrieve_read (session_id current_question : List Char)
deriving DecidableEq

/-- Effect of each backend operation on the two collections. -/
def applyOp (s : StoreState) : Op → StoreState
  | Op.upload docs session_id ts =>
      { s with rag_collection := s.rag_collection ++ upload_document docs session_id ts }
  | Op.store_chat_turn session_id role message turn_number timestamp =>
      { s with chat_history_collection := s.chat_history_collection ++
          [⟨session_id, role, message, turn_number, timestamp⟩] }
  | Op.delete_session_data session_id =>
      ⟨s.rag_collection.filter (fun p => ¬ p.session_id = session_id),
        s.chat_history_collection.filter (fun t => ¬ t.session_id = session_id)⟩
  | Op.backend_startup => ⟨[], []⟩
  | Op.search_read _ _ => s
  | Op.retrieve_read _ _ => s

theorem mem_embed_session (documents : List Document) (session_id ts : List Char)
    (p : KBPoint) (hp : p ∈ embed_and_store_chunks documents session_id ts) :
    p.session_id = session_id := by
  unfold embed_and_store_chunks at hp
  rcases List.mem_map.mp hp with ⟨doc, _, rfl⟩
  rfl

theorem length_splitOnP (p : Char → Bool) (s : List Char) :
    (s.splitOnP p).length = s.countP p + 1 := by
  induction s with
  | nil => simp [List.splitOnP_nil]
  | cons c s ih =>
      rw [List.splitOnP_cons]
      by_cases hc : p c = true
      · rw [if_pos hc, List.countP_cons_of_pos _ _ hc]
        simp [ih]
      · rw [if_neg hc, List.countP_cons_of_neg _ _ (by simpa using hc)]
        have hne := List.splitOnP_ne_nil p s
        cases hsp : s.splitOnP p with
        | nil => exact absurd hsp hne
        | cons w ws =>
            rw [hsp] at ih
            simpa [List.modifyHead] using ih

/-!
### Claim theorems
-/

/-- C1: for every pair of sessions `a` and `b` and every query, after chunks
are upserted under `a` and under `b`, a search scoped to `a` inspects only
hits whose stored `session_id` equals `a` — never a chunk stored under `b` —
because the equality filter on `session_id` is applied before similarity
ranking. -/
theorem claim_c1_search_session_isolation (docsA docsB : List Document)
    (tsA tsB : List Char) (score : KBPoint → Int) (query a b : List Char)
    (top_k : Nat) (hab : a ≠ b) :
    ∀ p ∈ search_hits
        (embed_and_store_chunks docsA a tsA ++ embed_and_store_chunks docsB b tsB)
        score query a top_k,
      p.session_id = a ∧ p ∉ embed_and_store_chunks docsB b tsB := by
  intro p hp
  have hsid := (mem_search_hits_filter _ score query a top_k p hp).2
  refine ⟨hsid, fun hmem => ?_⟩
  have hb := mem_embed_session docsB b tsB p hmem
  rw [hsid] at hb
  exact hab hb

theorem claim_c1_witness :
    ("A".toList ≠ "B".toList) ∧
    ∀ p ∈ search_hits
        (embed_and_store_chunks [⟨"alpha fact".toList, "f.txt".toList, "txt".toList, "c1".toList⟩]
            "A".toList "0".toList ++
          embed_and_store_chunks [⟨"beta fact".toList, "g.txt".toList, "txt".toList, "c2".toList⟩]
            "B".toList "0".toList)
        (fun _ => 0) "q".toList "A".toList 5,
      p.session_id = "A".toList ∧
        p ∉ embed_and_store_chunks [⟨"beta fact".toList, "g.txt".toList, "txt".toList, "c2".toList⟩]
          "B".toList "0".toList :=
  ⟨by decide,
    claim_c1_search_session_isolation
      [⟨"alpha fact".toList, "f.txt".toList, "txt".toList, "c1".toList⟩]
      [⟨"beta fact".toList, "g.txt".toList, "txt".toList, "c2".toList⟩]
      "0".toList "0".toList (fun _ => 0) "q".toList "A".toList "B".toList 5 (by decide)⟩

def samplePoint : KBPoint :=
  ⟨"c1".toList, "hello world".toList, "A".toList, "0".toList, "txt".toList, "f.txt".toList⟩

def sampleState : StoreState :=
  ⟨[samplePoint], []⟩

/-- C2 is refuted: module initialization of `backend.qdrant_client`
unconditionally runs `clean_collections()`, so backend startup removes a
previously stored record. -/
theorem claim_c2_counterexample :
    samplePoint ∈ sampleState.rag_collection ∧
    samplePoint ∉ (applyOp sampleState Op.backend_startup).rag_collection := by
  constructor
  · decide
  · decide

/-- C2 (amended): stored chunks and chat turns are removed only by
`delete_session_data` or by the `clean_collections` wipe that runs at module
initialization; every other operation (upload, chat-turn write, reads)
preserves all existing records. -/
theorem claim_c2_records_preserved (s : StoreState) (op : Op)
    (hdel : ∀ sid, op ≠ Op.delete_session_data sid)
    (hstart : op ≠ Op.backend_startup) :
    (∀ p ∈ s.rag_collection, p ∈ (applyOp s op).rag_collection) ∧
    (∀ t ∈ s.chat_history_collection, t ∈ (applyOp s op).chat_history_collection) := by
  cases op with
  | upload docs sid ts =>
      exact ⟨fun p hp => List.mem_append.mpr (Or.inl hp), fun t ht => ht⟩
  | store_chat_turn sid role msg turn ts =>
      exact ⟨fun p hp => hp, fun t ht => List.mem_append.mpr (Or.inl ht)⟩
  | delete_session_data sid => exact absurd rfl (hdel sid)
  | backend_startup => exact absurd rfl hstart
  | search_read q sid => exact ⟨fun p hp => hp, fun t ht => ht⟩
  | retrieve_read sid cq => exact ⟨fun p hp => hp, fun t ht => ht⟩

theorem claim_c2_witness :
    samplePoint ∈ (applyOp sampleState
      (Op.store_chat_turn "A".toList "user".toList "hi".toList 1 [])).rag_collection :=
  (claim_c2_records_preserved sampleState
      (Op.store_chat_turn "A".toList "user".toList "hi".toList 1 [])
      (fun _ h => Op.noConfusion h) (fun h => Op.noConfusion h)).1
    samplePoint (by decide)

/-- C3 is refuted: `chunk_text` applies no minimum-character floor; a chunk
of 2 characters is returned under the default parameters. -/
theorem claim_c3_counterexample :
    ∃ c ∈ chunk_text ["Hi".toList] 200 50, c.length < 10 := by decide

/-- C3 (amended): `chunk_text` drops no chunk by a character floor; the only
guarantee is non-degeneracy — when every input sentence contains at least
one word, every returned chunk is a nonempty string containing at least one
word (chunks shorter than 10 characters are returned, not dropped). -/
theorem claim_c3_no_char_floor (sentences : List (List Char)) (cs ov : Nat)
    (h : ∀ s ∈ sentences, pwords s ≠ []) :
    ∀ c ∈ chunk_text sentences cs ov, c ≠ [] ∧ pwords c ≠ [] :=
  fun c hc => ⟨(chunk_text_ne_nil sentences cs ov h c hc).2,
    (chunk_text_ne_nil sentences cs ov h c hc).1⟩

theorem claim_c3_witness :
    (∀ s ∈ ["Hi".toList], pwords s ≠ []) ∧
    ∀ c ∈ chunk_text ["Hi".toList] 200 50, c ≠ [] ∧ pwords c ≠ [] :=
  ⟨by decide, claim_c3_no_char_floor ["Hi".toList] 200 50 (by decide)⟩

/-- C4 is refuted: with `chunk_size = 10`, `overlap = 5` and two sentences of
10 and 8 words (none exceeding `chunk_size`), the second produced chunk holds
13 words — the overlap seed plus a fitting sentence exceed `max_size`, so the
"single oversized sentence" exception does not cover all oversized chunks. -/
theorem claim_c4_counterexample :
    (∀ s ∈ ["a b c d e f g h i j".toList, "k l m n o p q r".toList],
      (pwords s).length ≤ 10) ∧
    ∃ c ∈ chunk_text ["a b c d e f g h i j".toList, "k l m n o p q r".toList] 10 5,
      10 < (pwords c).length := by decide

/-- C4 (amended): when every sentence has at most `chunk_size` words, every
chunk returned by `chunk_text` has at most `chunk_size + overlap` words (the
overlap carry-over can push a chunk beyond `chunk_size` by up to `overlap`
words; sentences are never truncated). -/
theorem claim_c4_word_bound (sentences : List (List Char)) (chunk_size overlap : Nat)
    (h : ∀ s ∈ sentences, (pwords s).length ≤ chunk_size) :
    ∀ c ∈ chunk_text sentences chunk_size overlap,
      (pwords c).length ≤ chunk_size + overlap :=
  chunk_text_word_bound sentences chunk_size overlap h

theorem claim_c4_witness :
    (∀ s ∈ ["a b c".toList, "d e f g".toList], (pwords s).length ≤ 10) ∧
    ∀ c ∈ chunk_text ["a b c".toList, "d e f g".toList] 10 5,
      (pwords c).length ≤ 10 + 5 :=
  ⟨by decide, claim_c4_word_bound ["a b c".toList, "d e f g".toList] 10 5 (by decide)⟩

/-- C5: concatenating the chunks' words after removing from each chunk the
seed words repeated from the end of its predecessor (the trailing
`min overlap (predecessor word count)` words) reconstructs exactly the word
sequence of the input, and each chunk's seed really is the trailing overlap
of its predecessor — no word is lost or reordered. -/
theorem claim_c5_reconstruction (sentences : List (List Char)) (cs ov : Nat) :
    dedupWords ov (chunk_text sentences cs ov) = (sentences.map pwords).flatten ∧
    (chunk_text sentences cs ov).Chain' (seedRel ov) :=
  chunk_text_reconstruct sentences cs ov

/-- C6: whatever order the store returns the session's chat turns in,
`retrieve_chat_context` re-sorts them by `turn_number` ascending and returns
the lines `"<Role>: <message>"` (role capitalized) joined by newlines, oldest
turn first. -/
theorem claim_c6_history_sorted (records : List ChatRecord) :
    ∃ ts : List ChatPayload,
      List.Perm (records.filterMap (fun r => r.payload)) ts ∧
      ts.Sorted turnLE ∧
      retrieve_chat_context (Except.ok records) =
        List.intercalate ['\n']
          ((ts.filter (fun t => t.role ≠ [] ∧ t.message ≠ [])).map format_turn) := by
  refine ⟨List.insertionSort turnLE (records.filterMap (fun r => r.payload)),
    (List.perm_insertionSort turnLE _).symm, List.sorted_insertionSort turnLE _, ?_⟩
  rfl

/-- C7: `retrieve_chat_context` never propagates an exception: every
retrieval error and the no-history outcome both yield the empty string. -/
theorem claim_c7_retrieve_never_raises :
    (∀ err : List Char, retrieve_chat_context (Except.error err) = []) ∧
    retrieve_chat_context (Except.ok []) = [] :=
  ⟨fun _ => rfl, rfl⟩

/-- C8: the turn number assigned to the current exchange is
`(number of newline-separated lines of chat_context) / 2 + 1` when the
context is nonempty (the number of lines being one more than the number of
newline characters) and `1` when it is empty; being a function of the context
string, the same context always yields the same turn number. -/
theorem claim_c8_turn_number_formula (chat_context : List Char) :
    turn_number_for chat_context =
      if chat_context = [] then 1 else (chat_context.count '\n' + 1) / 2 + 1 := by
  unfold turn_number_for
  by_cases h : chat_context = []
  · simp [h]
  · rw [if_pos h, if_neg h, length_splitOnP]
    rfl

/-- C9: in every exchange, the user's question is stored before any token is
streamed, the assistant turn is stored after all tokens, the assistant
message is exactly the concatenation of the streamed tokens in order, and
both stored turns carry the same turn number. -/
theorem claim_c9_stream_order (session_id question chat_context : List Char)
    (llm_chunks : List (Option (List Char))) :
    stream_response session_id question chat_context llm_chunks =
      StreamEvent.stored session_id "user".toList question (turn_number_for chat_context) ::
        ((stream_tokens llm_chunks).map StreamEvent.streamed ++
          [StreamEvent.stored session_id "assistant".toList
            (stream_tokens llm_chunks).flatten (turn_number_for chat_context)]) := by
  unfold stream_response
  rw [stream_loop_spec llm_chunks [] []]
  simp

/-- C10: an upload with no supplied session id stores its chunks under the
fixed literal session id "global" — not a freshly minted unique id — so any
two such uploads share one partition and every stored point passes the
session filter a search scoped to "global" applies. -/
theorem claim_c10_default_session_global (docs1 docs2 : List Document)
    (ts1 ts2 : List Char) :
    ∀ p ∈ upload_document docs1 none ts1 ++ upload_document docs2 none ts2,
      p.session_id = "global".toList ∧ session_filter "global".toList p = true := by
  intro p hp
  have hsid : p.session_id = "global".toList := by
    rcases List.mem_append.mp hp with h | h
    · exact mem_embed_session docs1 _ ts1 p h
    · exact mem_embed_session docs2 _ ts2 p h
  refine ⟨hsid, ?_⟩
  unfold session_filter
  simp [hsid]

theorem claim_c10_witness :
    (⟨"c1".toList, "alpha".toList, "global".toList, "0".toList, "txt".toList,
        "f.txt".toList⟩ : KBPoint).session_id = "global".toList ∧
      session_filter "global".toList
        ⟨"c1".toList, "alpha".toList, "global".toList, "0".toList, "txt".toList,
          "f.txt".toList⟩ = true :=
  claim_c10_default_session_global
    [⟨"alpha".toList, "f.txt".toList, "txt".toList, "c1".toList⟩]
    [⟨"beta".toList, "g.txt".toList, "txt".toList, "c2".toList⟩]
    "0".toList "0".toList
    ⟨"c1".toList, "alpha".toList, "global".toList, "0".toList, "txt".toList, "f.txt".toList⟩
    (by decide)
